import Mathlib

/-!
# Verification of the gostalt/collection sequence-container library

A shallow embedding of the Go package `collection` (files `collection.go`,
`numeric_collection.go`, the `join` sub-package, and the error declarations)
into Lean 4, together with proofs and refutations of the specification's
claims about it.

Modelling conventions:

* A Go `collection[T]` (a struct holding one slice field `contents`) becomes
  a one-field structure over `List T`.
* Go's `T` is constrained `comparable`; we require `DecidableEq T`.  The Go
  zero value `*new(T)` is modelled by `default` from an `Inhabited T`
  instance.
* Go `int` indices and counts are modelled as `Int`.
* A Go operation that can panic (out-of-range slice index or slice bound) is
  modelled as `Option`-valued: `none` is a runtime panic, `some` a normal
  return.  Go functions returning `(T, error)` become
  `Option (T × Option GoError)`: the outer `Option` is panic/no-panic, the
  inner one the returned `error` value (`none` = Go `nil`).
* Methods with pointer receivers (`Pop`, `Set`, `SafeSet`) return the updated
  collection explicitly; methods with value receivers (everything else,
  notably `Append`) receive a copy of the struct and therefore cannot mutate
  the caller's collection.
-/

/-- The two error values declared by the package:
`ErrNoItem` (`errors.New("item not found")`) and
`ErrIndexOutOfRange` (`errors.New("index out of range")`). -/
inductive GoError where
  | ErrNoItem : GoError
  | ErrIndexOutOfRange : GoError
deriving DecidableEq, Repr

/-- Go slice read `l[i]` with an `int` index: panics (`none`) unless
`0 ≤ i < len(l)`. -/
def goIndex {T : Type} (l : List T) (i : Int) : Option T :=
  if i < 0 then none else l.get? i.toNat

/-- Go slice element write `l[i] = v`: panics (`none`) unless
`0 ≤ i < len(l)`; otherwise returns the updated slice. -/
def goWrite {T : Type} (l : List T) (i : Int) (v : T) : Option (List T) :=
  if i < 0 ∨ (l.length : Int) ≤ i then none else some (l.set i.toNat v)

/-- Go slice expression `l[:i]`: panics (`none`) unless `0 ≤ i ≤ len(l)`. -/
def goSliceTo {T : Type} (l : List T) (i : Int) : Option (List T) :=
  if i < 0 ∨ (l.length : Int) < i then none else some (l.take i.toNat)

/-- Go slice expression `l[i:]`: panics (`none`) unless `0 ≤ i ≤ len(l)`. -/
def goSliceFrom {T : Type} (l : List T) (i : Int) : Option (List T) :=
  if i < 0 ∨ (l.length : Int) < i then none else some (l.drop i.toNat)

/-- The Go struct `collection[T comparable] { contents []T }`. -/
structure collection (T : Type) where
  contents : List T
deriving DecidableEq, Repr

namespace collection

variable {T : Type}

/-- Go `Make` returns a new empty collection of type T. -/
def Make : collection T :=
  ⟨[]⟩

/-- Go `From` returns a new collection from the provided slice. -/
def From (slice : List T) : collection T :=
  ⟨slice⟩

/-- Go `All` returns the underlying data for the collection. -/
def All (c : collection T) : List T :=
  c.contents

/-- Go `Count` returns the total length of the collection (a Go `int`). -/
def Count (c : collection T) : Int :=
  (c.All.length : Int)

/-- Go `Empty` returns true if the collection contains no items.
Source: `if c.Count() == 0 { return true }; return false`. -/
def Empty (c : collection T) : Bool :=
  if c.Count = 0 then true else false

/-- Go `NotEmpty` returns true if the collection contains items. -/
def NotEmpty (c : collection T) : Bool :=
  !c.Empty

/-- Go `SafeAt` returns the item at the given index, or the zero value together
with `ErrNoItem`.  Source guard: `if c.Empty() || c.Count() < i`; the
subsequent read `c.All()[i]` can panic (outer `none`). -/
def SafeAt [Inhabited T] (c : collection T) (i : Int) : Option (T × Option GoError) :=
  if c.Empty ∨ c.Count < i then
    some (default, some GoError.ErrNoItem)
  else
    (goIndex c.All i).map (fun v => (v, none))

/-- Go `At` returns the item at the given index, discarding the error:
`v, _ := c.SafeAt(i); return v`. -/
def At [Inhabited T] (c : collection T) (i : Int) : Option T :=
  (c.SafeAt i).map Prod.fst

/-- Go `SafeFirst` returns the first item: `return c.SafeAt(0)`. -/
def SafeFirst [Inhabited T] (c : collection T) : Option (T × Option GoError) :=
  c.SafeAt 0

/-- Go `First` returns the first item, discarding the error:
`v, _ := c.SafeFirst(); return v`. -/
def First [Inhabited T] (c : collection T) : Option T :=
  c.SafeFirst.map Prod.fst

/-- Go `SafeLast` returns the last item, or the zero value with `ErrNoItem` when
the collection is empty.  Source: guard `c.Empty()`, then
`c.All()[len(c.All())-1]`. -/
def SafeLast [Inhabited T] (c : collection T) : Option (T × Option GoError) :=
  if c.Empty then
    some (default, some GoError.ErrNoItem)
  else
    (goIndex c.All (c.Count - 1)).map (fun v => (v, none))

/-- Go `Last` returns the last item, discarding the error. -/
def Last [Inhabited T] (c : collection T) : Option T :=
  c.SafeLast.map Prod.fst

end collection

/-! ## Claim C1 -/

/-- Claim C1: for every container `C` and integer index `i`, `SafeAt i`
returns without error exactly when `0 ≤ i < Count C`; and whenever it
returns an error, the error is `ErrNoItem` and the accompanying value is the
element type's zero value.  (For a non-empty collection and `i = Count C` or
`i < 0` the method neither succeeds nor returns an error: the slice read
panics, which the `iff` correctly excludes from the no-error case.) -/
theorem safeAt_no_error_iff_in_bounds {T : Type} [Inhabited T] [DecidableEq T]
    (c : collection T) (i : Int) :
    ((∃ v, c.SafeAt i = some (v, none)) ↔ 0 ≤ i ∧ i < c.Count) ∧
    (∀ v e, c.SafeAt i = some (v, some e) → e = GoError.ErrNoItem ∧ v = default) := by
  constructor
  · constructor
    · rintro ⟨v, hv⟩
      unfold collection.SafeAt at hv
      split at hv
      · simp at hv
      · rename_i hcond
        unfold goIndex at hv
        split at hv
        · simp at hv
        · rename_i hneg
          push_neg at hneg
          refine ⟨hneg, ?_⟩
          simp only [Option.map_eq_some'] at hv
          obtain ⟨w, hw, _⟩ := hv
          have hlt := List.get?_eq_some.mp hw
          obtain ⟨hl, _⟩ := hlt
          unfold collection.Count
          omega
    · rintro ⟨h0, hlt⟩
      have hne : ¬ (c.Empty ∨ c.Count < i) := by
        unfold collection.Empty
        unfold collection.Count at *
        rintro (h | h)
        · split at h
          · omega
          · exact Bool.false_ne_true h
        · omega
      unfold collection.SafeAt
      rw [if_neg hne]
      unfold goIndex
      rw [if_neg (by omega)]
      have hl : i.toNat < c.All.length := by
        unfold collection.Count at hlt
        omega
      refine ⟨c.All.get ⟨i.toNat, hl⟩, ?_⟩
      rw [List.get?_eq_get hl]
      rfl
  · intro v e hv
    unfold collection.SafeAt at hv
    split at hv
    · simp at hv
      exact ⟨hv.2.symm, hv.1.symm⟩
    · unfold goIndex at hv
      split at hv
      · simp at hv
      · simp only [Option.map_eq_some'] at hv
        obtain ⟨w, _, hw⟩ := hv
        simp at hw

/-- Witness for C1: on the concrete collection `[10, 20, 30]`, index 1 is in
bounds and `SafeAt` returns `(20, nil)`. -/
theorem safeAt_no_error_iff_in_bounds_witness :
    ∃ v, (collection.From [10, 20, 30]).SafeAt 1 = some (v, none) :=
  (safeAt_no_error_iff_in_bounds (collection.From [10, 20, 30]) 1).1.mpr (by decide)

/-! ## Append, Set, SafeSet -/

namespace collection

variable {T : Type}

/-- Go `Append` adds the given values to the end of the collection.  Source:
`c.contents = append(c.All(), value...); return c` — note the VALUE receiver:
`c` is a copy of the caller's struct, so only the copy is updated and then
returned. -/
def Append (c : collection T) (value : List T) : collection T :=
  ⟨c.All ++ value⟩

/-- Models executing `res := c.Append(vals...)` as a Go method call: the
receiver is passed by value, so the caller's collection is unchanged after
the call.  First component: the caller's collection after the call; second:
the collection returned for chaining. -/
def AppendCall (c : collection T) (vals : List T) : collection T × collection T :=
  (c, c.Append vals)

/-- Go `SafeSet` updates the value at the given index.  Source guard:
`if c.Count() < index { return ErrIndexOutOfRange }`, then the write
`c.contents[index] = value` (which panics for `index == count` and for
negative `index`).  Pointer receiver: the updated collection is returned
explicitly, paired with the returned `error`. -/
def SafeSet (c : collection T) (index : Int) (value : T) : Option (Option GoError × collection T) :=
  if c.Count < index then
    some (some GoError.ErrIndexOutOfRange, c)
  else
    (goWrite c.contents index value).map (fun l => (none, ⟨l⟩))

/-- Go `Set` updates the value at the given index, growing the backing slice to
length `index+1` when the guard `c.Count() >= index` fails.  In the grow
branch the source builds `make([]T, index+1)` (zero-filled), copies the old
contents over, and writes `value` at `index`; there every write is in
bounds, so it is modelled with `List.set` directly.  In the first branch the
write `c.contents[index] = value` can panic (e.g. at `index == count`). -/
def Set [Inhabited T] (c : collection T) (index : Int) (value : T) : Option (collection T) :=
  if c.Count ≥ index then
    (goWrite c.contents index value).map (fun l => ⟨l⟩)
  else
    some ⟨((c.contents.enum.foldl (fun (d : List T) (iv : Nat × T) => d.set iv.1 iv.2)
      (List.replicate (index.toNat + 1) default)).set index.toNat value)⟩

end collection

/-! ## Claim C2 -/

/-- Claim C2 counterexample: `Append` does NOT mutate its receiver.  With
receiver `[1]` and argument `2`, after `res := c.Append(2)` the caller's
collection still holds `[1]` — not `[1, 2]` as the claim requires — and the
returned collection `[1, 2]` is a different collection from the receiver.
(The package's own `TestAppend` asserts exactly this non-mutating
behaviour.) -/
theorem appendCall_does_not_mutate_receiver_counterexample :
    ¬ (((collection.From [1]).AppendCall [2]).1.All = [1, 2]) ∧
    ((collection.From [1]).AppendCall [2]).1.All = [1] ∧
    ((collection.From [1]).AppendCall [2]).2.All = [1, 2] ∧
    ((collection.From [1]).AppendCall [2]).1 ≠ ((collection.From [1]).AppendCall [2]).2 := by
  decide

/-- Claim C2 amended: `Append` leaves the caller's receiver unchanged (value
receiver) and returns a NEW collection whose contents are the receiver's old
contents followed by the arguments in argument order; the collection
returned for chaining is that new collection, not the receiver. -/
theorem appendCall_returns_new_extended_collection {T : Type} (c : collection T) (vals : List T) :
    (c.AppendCall vals).1 = c ∧ (c.AppendCall vals).2.All = c.All ++ vals :=
  ⟨rfl, rfl⟩

/-! ## Claim C3 -/

/-- Claim C3: `SafeSet`'s own documentation promises that an out-of-range
index yields `ErrIndexOutOfRange` with the collection unmodified, but at the
boundary `index == count` (and for negative indices) the guard
`c.Count() < index` passes control to the raw write, which panics instead
(`= none` in the model).  Indices strictly greater than `count` do return
the error with the collection unchanged, and in-bounds indices overwrite in
place with no error. -/
theorem safeSet_panics_at_index_eq_count :
    (collection.From [1, 2]).SafeSet 2 9 = none ∧
    (collection.From [1, 2]).SafeSet (-1) 9 = none ∧
    (collection.From [1, 2]).SafeSet 3 9 =
      some (some GoError.ErrIndexOutOfRange, collection.From [1, 2]) ∧
    (collection.From [1, 2]).SafeSet 1 9 = some (none, collection.From [1, 9]) := by
  decide

/-! ## Before, After, Split, Pop -/

namespace collection

variable {T : Type}

/-- Go `Before` returns the items before the provided index:
`return From(c.All()[:i])` (the slice expression can panic). -/
def Before (c : collection T) (i : Int) : Option (collection T) :=
  (goSliceTo c.All i).map From

/-- Go `After` returns the items after the provided index:
`return From(c.All()[i:])` (the slice expression can panic). -/
def After (c : collection T) (i : Int) : Option (collection T) :=
  (goSliceFrom c.All i).map From

/-- Go `Split` returns two collections, split on the given index:
`[]collection{c.Before(i), c.After(i)}`, modelled as a pair. -/
def Split (c : collection T) (i : Int) : Option (collection T × collection T) :=
  match c.Before i, c.After i with
  | some b, some a => some (b, a)
  | _, _ => none

/-- Go `Pop` removes and returns items from the end of the collection (pointer
receiver).  Source: `split := c.Split(c.Count() - count)`, then
`c.contents = c.All()[:c.Count()-count]`, then `return split[1]`.
Result components: the receiver after the call, and the returned
collection. -/
def Pop (c : collection T) (count : Int) : Option (collection T × collection T) :=
  match c.Split (c.Count - count), goSliceTo c.All (c.Count - count) with
  | some s, some t => some (From t, s.2)
  | _, _ => none

end collection

/-! ## Claim C5 -/

/-- Claim C5: for `0 ≤ n ≤ Count C`, `Pop n` mutates the receiver to retain
exactly its first `Count C - n` elements in their original order, and
returns a collection holding exactly the `n` removed trailing elements in
their original order. -/
theorem pop_removes_and_returns_trailing_elements {T : Type} (c : collection T) (n : Int)
    (h0 : 0 ≤ n) (h1 : n ≤ c.Count) :
    c.Pop n = some (collection.From (c.All.take (c.All.length - n.toNat)),
      collection.From (c.All.drop (c.All.length - n.toNat))) := by
  have hcut : (c.Count - n).toNat = c.All.length - n.toNat := by
    unfold collection.Count at *
    omega
  have hnn : ¬ (c.Count - n < 0 ∨ (c.All.length : Int) < c.Count - n) := by
    unfold collection.Count at *
    omega
  unfold collection.Pop collection.Split collection.Before collection.After
  unfold goSliceTo goSliceFrom
  simp only [if_neg hnn, hcut, Option.map_some']

/-- Witness for C5: popping 2 items from `[1,2,3,4,5]` leaves the receiver
as `[1,2,3]` and returns `[4,5]`. -/
theorem pop_removes_and_returns_trailing_elements_witness :
    (collection.From [1, 2, 3, 4, 5]).Pop 2 =
      some (collection.From [1, 2, 3], collection.From [4, 5]) :=
  pop_removes_and_returns_trailing_elements (collection.From [1, 2, 3, 4, 5]) 2
    (by decide) (by decide)

/-! ## Claim C6 -/

/-- Claim C6: for `0 ≤ i ≤ Count C`, `Split i` returns exactly the pair
`(Before i, After i)`, `Before i` holds the elements at indices `[0, i)`,
`After i` those at `[i, Count C)`, and concatenating the two reproduces
`All C`. -/
theorem split_is_before_after_pair_and_concat {T : Type} (c : collection T) (i : Int)
    (h0 : 0 ≤ i) (h1 : i ≤ c.Count) :
    ∃ b a, c.Before i = some b ∧ c.After i = some a ∧ c.Split i = some (b, a) ∧
      b.All = c.All.take i.toNat ∧ a.All = c.All.drop i.toNat ∧ b.All ++ a.All = c.All := by
  have hnn : ¬ (i < 0 ∨ (c.All.length : Int) < i) := by
    unfold collection.Count at *
    omega
  refine ⟨collection.From (c.All.take i.toNat), collection.From (c.All.drop i.toNat), ?_, ?_, ?_, rfl, rfl, ?_⟩
  · unfold collection.Before goSliceTo
    rw [if_neg hnn]
    rfl
  · unfold collection.After goSliceFrom
    rw [if_neg hnn]
    rfl
  · unfold collection.Split collection.Before collection.After goSliceTo goSliceFrom
    simp only [if_neg hnn, Option.map_some']
  · exact List.take_append_drop i.toNat c.All

/-- Witness for C6: splitting `[1,2,3,4,5,6]` at index 3 yields
`([1,2,3], [4,5,6])`, which concatenate back to the original contents. -/
theorem split_is_before_after_pair_and_concat_witness :
    ∃ b a, (collection.From [1, 2, 3, 4, 5, 6]).Before 3 = some b ∧
      (collection.From [1, 2, 3, 4, 5, 6]).After 3 = some a ∧
      (collection.From [1, 2, 3, 4, 5, 6]).Split 3 = some (b, a) ∧
      b.All = (collection.From [1, 2, 3, 4, 5, 6]).All.take (3 : Int).toNat ∧
      a.All = (collection.From [1, 2, 3, 4, 5, 6]).All.drop (3 : Int).toNat ∧
      b.All ++ a.All = (collection.From [1, 2, 3, 4, 5, 6]).All :=
  split_is_before_after_pair_and_concat (collection.From [1, 2, 3, 4, 5, 6]) 3
    (by decide) (by decide)

/-! ## Search, SafeSearch -/

namespace collection

variable {T : Type}

/-- Loop of `SafeSearch`: `for i, v := range c.All() { if fn(i, v) { return i, nil } }`,
falling through to `return -1, ErrNoItem`. -/
def safeSearchAux (fn : Nat → T → Bool) : Nat → List T → Int × Option GoError
  | _, [] => (-1, some GoError.ErrNoItem)
  | i, v :: rest => if fn i v then ((i : Int), none) else safeSearchAux fn (i + 1) rest

/-- Go `SafeSearch` returns the index of the first item that matches the given
predicate; if no item is found, `-1` and `ErrNoItem` are returned. -/
def SafeSearch (c : collection T) (fn : Nat → T → Bool) : Int × Option GoError :=
  safeSearchAux fn 0 c.All

/-- Go `Search` discards `SafeSearch`'s error: `v, _ := c.SafeSearch(fn); return v`. -/
def Search (c : collection T) (fn : Nat → T → Bool) : Int :=
  (c.SafeSearch fn).1

end collection

/-- When the `SafeSearch` loop falls through with an error, the index
component it carries is `-1`. -/
theorem safeSearchAux_error_index {T : Type} (fn : Nat → T → Bool) :
    ∀ (l : List T) (i : Nat), (collection.safeSearchAux fn i l).2 = some GoError.ErrNoItem →
      (collection.safeSearchAux fn i l).1 = -1 := by
  intro l
  induction l with
  | nil => intro i _; rfl
  | cons v rest ih =>
    intro i h
    by_cases hp : fn i v
    · simp [collection.safeSearchAux, hp] at h
    · simp only [collection.safeSearchAux, if_neg hp] at h ⊢
      exact ih (i + 1) h

/-! ## Claim C10 -/

/-- Claim C10: each unsafe accessor returns exactly the value component of
its safe counterpart with the error discarded: `At i` is the value of
`SafeAt i`, `First` the value of `SafeFirst`, `Last` the value of
`SafeLast`, and `Search p` the index of `SafeSearch p` — in particular `-1`
whenever `SafeSearch` reports `ErrNoItem`. -/
theorem unsafe_accessors_project_safe_variants {T : Type} [Inhabited T] [DecidableEq T]
    (c : collection T) (i : Int) (p : Nat → T → Bool) :
    c.At i = (c.SafeAt i).map Prod.fst ∧
    c.First = c.SafeFirst.map Prod.fst ∧
    c.Last = c.SafeLast.map Prod.fst ∧
    c.Search p = (c.SafeSearch p).1 ∧
    ((c.SafeSearch p).2 = some GoError.ErrNoItem → c.Search p = -1) :=
  ⟨rfl, rfl, rfl, rfl, fun h => safeSearchAux_error_index p c.All 0 h⟩

/-- Witness for C10: searching `[1, 2]` for the value 5 finds nothing, so
`SafeSearch` reports `ErrNoItem` and `Search` returns `-1`. -/
theorem unsafe_accessors_project_safe_variants_witness :
    (collection.From [1, 2]).Search (fun _ v => v == 5) = -1 :=
  (unsafe_accessors_project_safe_variants (collection.From [1, 2]) 0
    (fun _ v => v == 5)).2.2.2.2 (by decide)

/-! ## Filter, Has, HasNo, Diff, Unique -/

namespace collection

variable {T : Type}

/-- Loop of `Has`: `for i, v := range c.All() { if predicate(i, v) { return true } }`,
falling through to `return false`. -/
def hasAux (p : Nat → T → Bool) : Nat → List T → Bool
  | _, [] => false
  | i, v :: rest => if p i v then true else hasAux p (i + 1) rest

/-- Go `Has` returns true if the collection contains any item that matches the
provided predicate. -/
def Has (c : collection T) (p : Nat → T → Bool) : Bool :=
  hasAux p 0 c.All

/-- Loop of `HasNo`: `for i, v := range c.All() { if predicate(i, v) { return false } }`,
falling through to `return true`. -/
def hasNoAux (p : Nat → T → Bool) : Nat → List T → Bool
  | _, [] => true
  | i, v :: rest => if p i v then false else hasNoAux p (i + 1) rest

/-- Go `HasNo` returns true if the collection does not contain an item that
matches the provided predicate. -/
def HasNo (c : collection T) (p : Nat → T → Bool) : Bool :=
  hasNoAux p 0 c.All

/-- Loop of `Filter`: starting from `Make`, append each element for which the
predicate returns true, in iteration order. -/
def filterAux (p : Nat → T → Bool) : Nat → List T → List T
  | _, [] => []
  | i, v :: rest => if p i v then v :: filterAux p (i + 1) rest else filterAux p (i + 1) rest

/-- Go `Filter` keeps only the items for which the predicate returns true. -/
def Filter (c : collection T) (predicate : Nat → T → Bool) : collection T :=
  From (filterAux predicate 0 c.All)

/-- Go `Diff` returns the values from the original collection that are not found
in the given collection:
`c.Filter(func(i, v) { return comp.HasNo(func(i, value) { return value == v }) })`. -/
def Diff [DecidableEq T] (c comp : collection T) : collection T :=
  c.Filter (fun _ v => comp.HasNo (fun _ value => value == v))

/-- Go `Unique` returns all the unique items from the collection: starting from
`Make`, each element is appended iff the accumulator `HasNo` equal item. -/
def Unique [DecidableEq T] (c : collection T) : collection T :=
  c.All.foldl
    (fun nw v => if nw.HasNo (fun _ value => value == v) then ⟨nw.contents ++ [v]⟩ else nw)
    Make

end collection

/-- An index-independent `HasNo` predicate ignores the loop counter: the
`hasNoAux` loop with the equality predicate decides non-membership. -/
theorem hasNoAux_beq_eq_not_mem {T : Type} [DecidableEq T] (v : T) :
    ∀ (l : List T) (i : Nat),
      (collection.hasNoAux (fun _ value => value == v) i l = true) ↔ v ∉ l := by
  intro l
  induction l with
  | nil => intro i; simp [collection.hasNoAux]
  | cons u rest ih =>
    intro i
    by_cases hu : u = v
    · subst hu
      simp [collection.hasNoAux]
    · simp only [collection.hasNoAux, beq_iff_eq, if_neg hu, ih (i + 1), List.mem_cons]
      constructor
      · intro h hmem
        rcases hmem with h1 | h2
        · exact hu h1.symm
        · exact h h2
      · intro h hmem
        exact h (Or.inr hmem)

/-- Go `HasNo` with the equality predicate is the Boolean of non-membership. -/
theorem hasNo_beq_eq_decide_not_mem {T : Type} [DecidableEq T] (c : collection T) (v : T) :
    c.HasNo (fun _ value => value == v) = decide (v ∉ c.All) := by
  by_cases h : v ∈ c.All
  · have : ¬ (c.HasNo (fun _ value => value == v) = true) := by
      unfold collection.HasNo
      rw [hasNoAux_beq_eq_not_mem]
      simpa using h
    simp [Bool.eq_false_iff.mpr this, h]
  · have : c.HasNo (fun _ value => value == v) = true := by
      unfold collection.HasNo
      rw [hasNoAux_beq_eq_not_mem]
      exact h
    simp [this, h]

/-- An index-independent `Filter` predicate reduces `filterAux` to
`List.filter`. -/
theorem filterAux_eq_filter {T : Type} (q : T → Bool) :
    ∀ (l : List T) (i : Nat),
      collection.filterAux (fun _ v => q v) i l = l.filter q := by
  intro l
  induction l with
  | nil => intro i; rfl
  | cons u rest ih =>
    intro i
    by_cases hq : q u
    · simp [collection.filterAux, hq, ih (i + 1), List.filter_cons_of_pos]
    · simp [collection.filterAux, hq, ih (i + 1), List.filter_cons_of_neg]

/-! ## Claim C8 -/

/-- Claim C8: `Diff C D` is exactly the subsequence of `C` whose elements
equality-match no element of `D`: it equals `C` filtered by non-membership
in `D` (hence keeps relative order and multiplicity), it is a sublist of
`C`, and none of its elements occurs in `D`. -/
theorem diff_filters_out_elements_of_other {T : Type} [DecidableEq T] (c d : collection T) :
    (c.Diff d).All = c.All.filter (fun v => decide (v ∉ d.All)) ∧
    (c.Diff d).All.Sublist c.All ∧
    (∀ x, x ∈ (c.Diff d).All → x ∉ d.All) := by
  have h2 : (fun v => d.HasNo (fun _ value => value == v)) =
      (fun v => decide (v ∉ d.All)) := by
    funext v
    exact hasNo_beq_eq_decide_not_mem d v
  have hall : (c.Diff d).All = c.All.filter (fun v => decide (v ∉ d.All)) := by
    calc (c.Diff d).All
        = collection.filterAux (fun _ v => d.HasNo (fun _ value => value == v)) 0 c.All := rfl
      _ = c.All.filter (fun v => d.HasNo (fun _ value => value == v)) :=
          filterAux_eq_filter (fun v => d.HasNo (fun _ value => value == v)) c.All 0
      _ = c.All.filter (fun v => decide (v ∉ d.All)) := by rw [h2]
  refine ⟨hall, ?_, ?_⟩
  · rw [hall]
    exact List.filter_sublist c.All
  · intro x hx
    rw [hall] at hx
    have := List.of_mem_filter hx
    simpa using this

/-- Witness for C8: in `Diff [1,2,3,4,5] [2,5]` the element 1 is kept, and
the theorem yields that 1 does not occur in `[2, 5]`. -/
theorem diff_filters_out_elements_of_other_witness :
    (1 : Int) ∉ (collection.From [2, 5]).All :=
  (diff_filters_out_elements_of_other (collection.From [1, 2, 3, 4, 5])
    (collection.From [2, 5])).2.2 1 (by decide)

/-! ## Claim C7: first-occurrence deduplication -/

/-- First-occurrence-order deduplication, stated independently of the
source's accumulator loop (it follows the spec's words: keep each distinct
element once, at the position of its first occurrence). -/
def specDedup {T : Type} [DecidableEq T] : List T → List T
  | [] => []
  | a :: l => a :: specDedup (l.filter (fun x => x != a))
termination_by l => l.length
decreasing_by
  simp only [List.length_cons]
  exact Nat.lt_succ_of_le (List.length_filter_le _ _)

/-- The `Unique` accumulator loop, started from any accumulator, appends
exactly the first-occurrence deduplication of the elements not already in
the accumulator. -/
theorem unique_foldl_eq_specDedup {T : Type} [DecidableEq T] :
    ∀ (l : List T) (acc : collection T),
      (l.foldl
        (fun nw v => if nw.HasNo (fun _ value => value == v) then ⟨nw.contents ++ [v]⟩ else nw)
        acc).contents
      = acc.contents ++ specDedup (l.filter (fun x => decide (x ∉ acc.contents))) := by
  intro l
  induction l with
  | nil => intro acc; simp [specDedup]
  | cons a rest ih =>
    intro acc
    rw [List.foldl_cons, List.filter_cons]
    by_cases ha : a ∈ acc.contents
    · have hb : acc.HasNo (fun _ value => value == a) = false := by
        rw [hasNo_beq_eq_decide_not_mem]
        simpa [collection.All] using ha
      rw [if_neg (by simp [hb]), if_neg (by simpa using ha)]
      exact ih acc
    · have hb : acc.HasNo (fun _ value => value == a) = true := by
        rw [hasNo_beq_eq_decide_not_mem]
        simpa [collection.All] using ha
      rw [if_pos (by simp [hb]), if_pos (by simpa using ha)]
      rw [ih ⟨acc.contents ++ [a]⟩]
      have hfun : (fun x => decide (x ∉ acc.contents ++ [a])) =
          (fun x => ((x != a) && decide (x ∉ acc.contents))) := by
        funext x
        by_cases h1 : x = a
        · subst h1; simp
        · by_cases h2 : x ∈ acc.contents <;> simp [h1, h2]
      rw [List.append_assoc]
      congr 1
      rw [specDedup, hfun, ← List.filter_filter]
      rfl

/-- Go `specDedup` of a list is a sublist of it. -/
theorem specDedup_sublist {T : Type} [DecidableEq T] : ∀ (l : List T), (specDedup l).Sublist l := by
  intro l
  induction l using specDedup.induct with
  | case1 => simp [specDedup]
  | case2 a l ih =>
    rw [specDedup]
    exact List.Sublist.cons₂ a (ih.trans (List.filter_sublist l))

/-- Go `specDedup` preserves membership. -/
theorem specDedup_mem {T : Type} [DecidableEq T] :
    ∀ (l : List T) (x : T), x ∈ specDedup l ↔ x ∈ l := by
  intro l
  induction l using specDedup.induct with
  | case1 => simp [specDedup]
  | case2 a l ih =>
    intro x
    rw [specDedup]
    by_cases hx : x = a
    · subst hx; simp
    · simp only [List.mem_cons, ih x, List.mem_filter]
      constructor
      · rintro (h | ⟨h, _⟩)
        · exact Or.inl h
        · exact Or.inr h
      · rintro (h | h)
        · exact Or.inl h
        · exact Or.inr ⟨h, by simpa using hx⟩

/-- Go `specDedup` produces a duplicate-free list. -/
theorem specDedup_nodup {T : Type} [DecidableEq T] : ∀ (l : List T), (specDedup l).Nodup := by
  intro l
  induction l using specDedup.induct with
  | case1 => simp [specDedup]
  | case2 a l ih =>
    rw [specDedup]
    refine List.Nodup.cons ?_ ih
    intro hmem
    have := (specDedup_mem _ a).mp hmem
    simp at this

/-- Go `specDedup` fixes duplicate-free lists. -/
theorem specDedup_eq_self_of_nodup {T : Type} [DecidableEq T] :
    ∀ (l : List T), l.Nodup → specDedup l = l := by
  intro l
  induction l using specDedup.induct with
  | case1 => intro _; rw [specDedup]
  | case2 a l ih =>
    intro hnd
    have hal : a ∉ l := (List.nodup_cons.mp hnd).1
    have hfl : l.filter (fun x => x != a) = l := by
      apply List.filter_eq_self.mpr
      intro x hx
      simp only [bne_iff_ne, ne_eq, decide_eq_true_eq]
      intro hxa
      exact hal (hxa ▸ hx)
    have hnd2 : (l.filter (fun x => x != a)).Nodup := by
      rw [hfl]
      exact (List.nodup_cons.mp hnd).2
    rw [specDedup, ih hnd2, hfl]

/-- The contents of `Unique` are the first-occurrence deduplication of the
original contents. -/
theorem unique_all_eq_specDedup {T : Type} [DecidableEq T] (c : collection T) :
    c.Unique.All = specDedup c.All := by
  show (c.All.foldl _ collection.Make).contents = specDedup c.All
  rw [unique_foldl_eq_specDedup c.All collection.Make]
  rw [show (collection.Make : collection T).contents = [] from rfl]
  have hfilter : List.filter (fun x => decide (x ∉ ([] : List T))) c.All = c.All := by
    apply List.filter_eq_self.mpr
    intro x _
    simp
  rw [hfilter, List.nil_append]

/-- Claim C7: `Unique C` contains exactly the distinct elements of `C` —
it equals the first-occurrence deduplication of `C`'s contents, is
duplicate-free, keeps exactly the members of `C` as a sublist of `C` (hence
in first-occurrence order) — and `Unique` is idempotent. -/
theorem unique_is_first_occurrence_dedup_and_idempotent {T : Type} [DecidableEq T]
    (c : collection T) :
    c.Unique.All = specDedup c.All ∧
    c.Unique.All.Nodup ∧
    (∀ x, x ∈ c.Unique.All ↔ x ∈ c.All) ∧
    c.Unique.All.Sublist c.All ∧
    c.Unique.Unique = c.Unique := by
  have hall : c.Unique.All = specDedup c.All := unique_all_eq_specDedup c
  refine ⟨hall, ?_, ?_, ?_, ?_⟩
  · rw [hall]; exact specDedup_nodup c.All
  · intro x; rw [hall]; exact specDedup_mem c.All x
  · rw [hall]; exact specDedup_sublist c.All
  · have h1 : c.Unique.Unique.All = specDedup c.Unique.All := unique_all_eq_specDedup c.Unique
    have h2 : c.Unique.Unique.All = c.Unique.All := by
      rw [h1, hall]
      exact specDedup_eq_self_of_nodup (specDedup c.All) (specDedup_nodup c.All)
    cases hu : c.Unique.Unique with
    | mk l =>
      cases hv : c.Unique with
      | mk m =>
        have : l = m := by
          have e1 : l = ({ contents := l } : collection T).All := rfl
          have e2 : m = ({ contents := m } : collection T).All := rfl
          rw [e1, e2, ← hu, ← hv, h2]
        rw [this]

/-- Witness for C7: deduplicating `[1,2,3,1,1,2,2,3,3]` keeps the element 2
(membership is preserved). -/
theorem unique_is_first_occurrence_dedup_and_idempotent_witness :
    (2 : Int) ∈ (collection.From [1, 2, 3, 1, 1, 2, 2, 3, 3]).Unique.All :=
  ((unique_is_first_occurrence_dedup_and_idempotent
    (collection.From [1, 2, 3, 1, 1, 2, 2, 3, 3])).2.2.1 2).mpr (by decide)

/-! ## The `join` sub-package and `Join` -/

namespace join

/-- The `join.Method` struct: a `Between` separator and an optional `Final`
separator (Go zero value: the empty string). -/
structure Method where
  Between : String
  Final : String
deriving DecidableEq, Repr

/-- Go `join.CommaSeparatedJoin`: only `Between` is set, to a comma-space. -/
def CommaSeparatedJoin : Method :=
  ⟨", ", ""⟩

/-- Go `join.ListJoin`: comma-space between, " and " before the last element. -/
def ListJoin : Method :=
  ⟨", ", " and "⟩

end join

namespace collection

variable {T : Type}

/-- Loop of `Join`: `i` is the range index, `n` the element count, `resp`
the accumulator.  Per iteration the source appends the stringified element,
then: at `i == n-1` it adds no separator (`continue`); at `i == n-2` it adds
`Final` when non-empty, else `Between`; otherwise it adds `Between`.
`stringify` models `fmt.Sprintf("%v", v)`. -/
def joinLoop (n : Nat) (format : join.Method) (stringify : T → String) :
    Nat → List T → String → String
  | _, [], resp => resp
  | i, v :: rest, resp =>
    if i = n - 1 then
      joinLoop n format stringify (i + 1) rest (resp ++ stringify v)
    else if i = n - 2 then
      joinLoop n format stringify (i + 1) rest
        (resp ++ stringify v ++ (if format.Final ≠ "" then format.Final else format.Between))
    else
      joinLoop n format stringify (i + 1) rest (resp ++ stringify v ++ format.Between)

/-- Go `Join` joins the collection's items using the provided `join.Method`,
starting from the empty accumulator. -/
def Join (c : collection T) (format : join.Method) (stringify : T → String) : String :=
  joinLoop c.All.length format stringify 0 c.All ""

end collection

/-- Separator-insertion reference function, following the spec's words: the
`between` separator goes between each adjacent pair except the last pair,
which uses `final` when it is non-empty (else `between` again); 0 elements
give the empty string and 1 element just its string form. -/
def specJoin {T : Type} (between final : String) (stringify : T → String) : List T → String
  | [] => ""
  | [a] => stringify a
  | [a, b] => stringify a ++ (if final ≠ "" then final else between) ++ stringify b
  | a :: rest => stringify a ++ between ++ specJoin between final stringify rest

/-- The `Join` loop, at position `i` of `n` with accumulator `resp`, appends
exactly the reference join of the remaining elements. -/
theorem joinLoop_eq_specJoin {T : Type} (format : join.Method) (s : T → String) (n : Nat) :
    ∀ (rest : List T) (i : Nat) (resp : String), i + rest.length = n →
      collection.joinLoop n format s i rest resp =
        resp ++ specJoin format.Between format.Final s rest := by
  intro rest
  induction rest with
  | nil =>
    intro i resp _
    simp [collection.joinLoop, specJoin]
  | cons a tail ih =>
    intro i resp h
    cases tail with
    | nil =>
      have hi : i = n - 1 := by simp at h; omega
      simp only [collection.joinLoop, if_pos hi, specJoin]
    | cons b tail2 =>
      cases tail2 with
      | nil =>
        have h2 : i + 2 = n := by simpa using h
        have hne1 : ¬ (i = n - 1) := by omega
        have hi2 : i = n - 2 := by omega
        have hi1 : i + 1 = n - 1 := by omega
        simp only [collection.joinLoop, if_neg hne1, if_pos hi2, if_pos hi1, specJoin]
        simp [String.append_assoc]
      | cons c tail3 =>
        have h3 : i + (tail3.length + 3) = n := by simp at h; omega
        have hne1 : ¬ (i = n - 1) := by omega
        have hne2 : ¬ (i = n - 2) := by omega
        rw [show collection.joinLoop n format s i (a :: b :: c :: tail3) resp =
          collection.joinLoop n format s (i + 1) (b :: c :: tail3)
            (resp ++ s a ++ format.Between) from by
            simp only [collection.joinLoop, if_neg hne1, if_neg hne2]]
        rw [ih (i + 1) (resp ++ s a ++ format.Between) (by simp at h ⊢; omega)]
        rw [show specJoin format.Between format.Final s (a :: b :: c :: tail3) =
          s a ++ format.Between ++ specJoin format.Between format.Final s (b :: c :: tail3)
          from rfl]
        simp [String.append_assoc]

/-! ## Claim C9 -/

/-- Claim C9: `Join` concatenates the stringified elements with `Between`
between each adjacent pair except the last pair, which uses `Final` when
non-empty (else `Between`); the empty container joins to the empty string, a
singleton to its element's string form; and joining "first","second","third"
with between `", "` and final `" and "` yields `"first, second and third"`. -/
theorem join_inserts_separators_with_final :
    (∀ (T : Type) (format : join.Method) (s : T → String) (c : collection T),
      c.Join format s = specJoin format.Between format.Final s c.All ∧
      (collection.From ([] : List T)).Join format s = "" ∧
      ∀ a, (collection.From [a]).Join format s = s a) ∧
    (collection.From ["first", "second", "third"]).Join join.ListJoin (fun x => x) =
      "first, second and third" := by
  have hmain : ∀ (T : Type) (format : join.Method) (s : T → String) (c : collection T),
      c.Join format s = specJoin format.Between format.Final s c.All := by
    intro T format s c
    unfold collection.Join
    rw [joinLoop_eq_specJoin format s c.All.length c.All 0 "" (by simp)]
    simp
  refine ⟨fun T format s c => ⟨hmain T format s c, ?_, fun a => ?_⟩, ?_⟩
  · rw [hmain]
    rfl
  · rw [hmain]
    rfl
  · rw [hmain]
    rfl

/-! ## Reverse, the numeric collection, FromRange -/

namespace collection

variable {T : Type}

/-- Go `Reverse` returns a new collection with the values in reverse order.
Source: `new := From(make([]T, c.Count()))`, then
`c.Each(func(i, value) { new.Set(c.Count()-1-i, value) })`; the in-order
`Each` visitation with the mutating closure over `new` is modelled as a
monadic fold over the indexed contents. -/
def Reverse [Inhabited T] (c : collection T) : Option (collection T) :=
  (c.All.enum).foldlM
    (fun nw (iv : Nat × T) => nw.Set (c.Count - 1 - (iv.1 : Int)) iv.2)
    (From (List.replicate c.Count.toNat default))

end collection

/-- An in-bounds `Set` overwrites the element in place. -/
theorem set_inbounds {T : Type} [Inhabited T] (c : collection T) (i : Int) (v : T)
    (h0 : 0 ≤ i) (h1 : i < c.Count) :
    c.Set i v = some ⟨c.contents.set i.toNat v⟩ := by
  unfold collection.Set
  rw [if_pos h1.le]
  unfold goWrite
  rw [if_neg (by
    unfold collection.Count collection.All at h1
    omega)]
  rfl

/-- Writing the last slot of a `replicate` block. -/
theorem replicate_set_last {T : Type} (d v : T) :
    ∀ m, (List.replicate (m + 1) d).set m v = List.replicate m d ++ [v] := by
  intro m
  induction m with
  | zero => rfl
  | succ j ihj =>
    rw [List.replicate_succ d (j + 1), List.set_cons_succ, ihj]
    rw [List.replicate_succ d j]
    rfl

/-- The `Reverse` visitation loop: processing the remaining indexed elements
`t` (indices from `k`, original length `n`) over an accumulator whose head
is an untouched zero block writes exactly `t` reversed before `r`. -/
theorem reverse_loop {T : Type} [Inhabited T] (n : Nat) :
    ∀ (t : List T) (k : Nat) (r : List T), k + t.length = n →
      (List.enumFrom k t).foldlM
        (fun (nw : collection T) (iv : Nat × T) => nw.Set ((n : Int) - 1 - (iv.1 : Int)) iv.2)
        ⟨List.replicate t.length default ++ r⟩
      = some (⟨t.reverse ++ r⟩ : collection T) := by
  intro t
  induction t with
  | nil =>
    intro k r _
    simp [List.foldlM]
  | cons v t2 ih =>
    intro k r h
    simp only [List.length_cons] at h
    rw [show List.enumFrom k (v :: t2) = (k, v) :: List.enumFrom (k + 1) t2 from rfl]
    simp only [List.foldlM, List.length_cons]
    have hidx : (n : Int) - 1 - (k : Int) = (t2.length : Int) := by omega
    have hset : (⟨List.replicate (t2.length + 1) default ++ r⟩ : collection T).Set
        ((n : Int) - 1 - (k : Int)) v
        = some ⟨List.replicate t2.length default ++ (v :: r)⟩ := by
      rw [set_inbounds _ _ _ (by omega) (by
        unfold collection.Count collection.All
        simp only [List.length_append, List.length_replicate]
        omega)]
      rw [hidx]
      rw [show ((t2.length : Int)).toNat = t2.length from Int.toNat_natCast t2.length]
      rw [List.set_append]
      rw [if_pos (by simp)]
      rw [replicate_set_last, List.append_assoc, List.singleton_append]
    rw [hset]
    exact (ih (k + 1) (v :: r) (by omega)).trans (by
      rw [List.reverse_cons, List.append_assoc, List.singleton_append])

/-- Go `Reverse` reverses the contents (and never actually panics: every write
of its loop is in bounds). -/
theorem reverse_eq_reverse {T : Type} [Inhabited T] (c : collection T) :
    c.Reverse = some ⟨c.All.reverse⟩ := by
  have h := reverse_loop (T := T) c.All.length c.All 0 [] (by simp)
  simp only [List.append_nil] at h
  exact h

/-- The Go struct `numericCollection[T numeric] { collection[T] }`: the
generic collection embedded in the numeric specialization. -/
structure numericCollection (T : Type) where
  base : collection T
deriving DecidableEq, Repr

/-- Go `FromNumeric` creates a new numericCollection from the provided slice. -/
def FromNumeric {T : Type} (slice : List T) : numericCollection T :=
  ⟨collection.From slice⟩

namespace numericCollection

/-- Promotion of the embedded collection's `All`. -/
def All {T : Type} (c : numericCollection T) : List T :=
  c.base.All

/-- Promotion of the embedded collection's pointer-receiver `Set`. -/
def Set {T : Type} [Inhabited T] (c : numericCollection T) (i : Int) (v : T) :
    Option (numericCollection T) :=
  (c.base.Set i v).map (fun b => ⟨b⟩)

end numericCollection

/-- The list `[a, a+1, ..., a+n-1]`. -/
def ascRange (a : Int) (n : Nat) : List Int :=
  (List.range n).map (fun (k : Nat) => a + (k : Int))

/-- Go `FromRange` creates a new numericCollection of ints between the first
and last parameters, inclusive, with a step of 1.  Source: swap the bounds
when `first > last` (remembering `desc`), allocate `make([]int, len)` with
`len = last - first + 1`, fill it with `c.Set(i, first+i)` for each loop
index, and reverse the result when `desc`. -/
def FromRange (first last : Int) : Option (numericCollection Int) :=
  let f := if first > last then last else first
  let l := if first > last then first else last
  let len : Int := l - f + 1
  ((List.range len.toNat).foldlM
      (fun (c : numericCollection Int) (i : Nat) => c.Set (i : Int) (f + (i : Int)))
      (FromNumeric (List.replicate len.toNat 0))).bind
    (fun c =>
      if first > last then (c.base.Reverse).map (fun r => FromNumeric r.All) else some c)

/-- The `FromRange` fill loop writes the consecutive integers `f + k`, … at
positions `k`, … of the zero block following the already-filled prefix. -/
theorem fromRange_fill_loop (f : Int) :
    ∀ (m k : Nat) (A : List Int), A.length = k →
      (List.range' k m).foldlM
        (fun (c : numericCollection Int) (i : Nat) => c.Set (i : Int) (f + (i : Int)))
        ⟨⟨A ++ List.replicate m 0⟩⟩
      = some ⟨⟨A ++ (List.range' k m).map (fun (i : Nat) => f + (i : Int))⟩⟩ := by
  intro m
  induction m with
  | zero =>
    intro k A _
    simp [List.foldlM]
  | succ m2 ih =>
    intro k A hA
    rw [show List.range' k (m2 + 1) = k :: List.range' (k + 1) m2 from rfl]
    simp only [List.foldlM, List.map_cons]
    have hset : (⟨⟨A ++ List.replicate (m2 + 1) 0⟩⟩ : numericCollection Int).Set
        (k : Int) (f + (k : Int))
        = some ⟨⟨(A ++ [f + (k : Int)]) ++ List.replicate m2 0⟩⟩ := by
      unfold numericCollection.Set
      rw [set_inbounds _ _ _ (Int.natCast_nonneg k) (by
        unfold collection.Count collection.All
        simp only [List.length_append, List.length_replicate]
        omega)]
      rw [show ((k : Int)).toNat = k from Int.toNat_natCast k]
      rw [show ((⟨A ++ List.replicate (m2 + 1) 0⟩ : collection Int)).contents
        = A ++ List.replicate (m2 + 1) 0 from rfl]
      rw [List.set_append]
      rw [if_neg (by omega)]
      rw [show k - A.length = 0 from by omega]
      rw [List.replicate_succ, List.set_cons_zero]
      rw [show A ++ (f + (k : Int)) :: List.replicate m2 0
        = (A ++ [f + (k : Int)]) ++ List.replicate m2 0 from by
        rw [List.append_assoc, List.singleton_append]]
      rfl
    rw [hset]
    exact (ih (k + 1) (A ++ [f + (k : Int)]) (by simp [hA])).trans (by
      rw [List.append_assoc, List.singleton_append])

/-! ## Claim C4 -/

/-- Claim C4: `FromRange first last` yields the consecutive integers from
`first` to `last` inclusive with step 1, starting with the literal `first`
argument and ending with the literal `last` argument — ascending when
`first ≤ last`, descending otherwise; in particular `FromRange 5 2` yields
`[5,4,3,2]` and `FromRange 2 5` yields `[2,3,4,5]`. -/
theorem fromRange_runs_from_first_to_last :
    (∀ first last : Int,
      (FromRange first last).map numericCollection.All =
        some (if first > last
          then (ascRange last (first - last + 1).toNat).reverse
          else ascRange first (last - first + 1).toNat)) ∧
    (FromRange 5 2).map numericCollection.All = some [5, 4, 3, 2] ∧
    (FromRange 2 5).map numericCollection.All = some [2, 3, 4, 5] := by
  have hfill : ∀ (f : Int) (m : Nat),
      (List.range m).foldlM
        (fun (c : numericCollection Int) (i : Nat) => c.Set (i : Int) (f + (i : Int)))
        (FromNumeric (List.replicate m 0))
      = some (FromNumeric (ascRange f m)) := by
    intro f m
    have h := fromRange_fill_loop f m 0 [] rfl
    simp only [List.nil_append] at h
    rw [List.range_eq_range']
    exact h.trans (by
      simp only [ascRange]
      rw [List.range_eq_range']
      rfl)
  have hmain : ∀ first last : Int,
      (FromRange first last).map numericCollection.All =
        some (if first > last
          then (ascRange last (first - last + 1).toNat).reverse
          else ascRange first (last - first + 1).toNat) := by
    intro first last
    by_cases hd : first > last
    · simp only [FromRange, if_pos hd]
      rw [hfill last ((first - last + 1).toNat)]
      rw [Option.some_bind]
      rw [reverse_eq_reverse]
      simp only [Option.map_some']
      rfl
    · simp only [FromRange, if_neg hd]
      rw [hfill first ((last - first + 1).toNat)]
      rw [Option.some_bind]
      simp only [Option.map_some']
      rfl
  exact ⟨hmain, by rw [hmain 5 2]; decide, by rw [hmain 2 5]; decide⟩
